import Mathlib

/-!
Verification development for the `ai-relay-service` streaming relay
(`app/services.py`).  The Python source is shallowly embedded:

* JSON values are modelled by the inductive type `J`; Python's
  `json.dumps` (default separators, `ensure_ascii=True`) is `pyDumps`,
  and `json.dumps(..., sort_keys=True)` is `pyDumps ∘ canon`.
* `generate_cache_key` is the SHA-256 hex digest of the canonical
  serialization of the request payload, as in the source.
* `format_stream_part` is the Vercel-AI-SDK data-stream encoder.
* The tool-call assembler, the chunk-consumption loop, the consolidated
  error handling and the in-memory cache of
  `stream_openai_compatible_response` are embedded as pure state-passing
  functions (`stepFrag`, `processChunk`, `streamMissParts`, `runRelay`).
-/

/-- JSON values as produced/consumed by the relay (Python dicts keep
insertion order, so objects are association lists). -/
inductive J where
  | null
  | bool (b : Bool)
  | num (n : Int)
  | str (s : String)
  | arr (items : List J)
  | obj (entries : List (String × J))
deriving Repr

/-- Hex digit character (lowercase), as used by `\uXXXX` escapes and the
SHA-256 hex digest. -/
def hexDigit (n : Nat) : Char :=
  if n < 10 then Char.ofNat (48 + n) else Char.ofNat (87 + n)

/-- Four-digit lowercase hex rendering of a value below `0x10000`. -/
def hex4 (n : Nat) : String :=
  String.mk [hexDigit (n / 4096 % 16), hexDigit (n / 256 % 16),
             hexDigit (n / 16 % 16), hexDigit (n % 16)]

/-- Escape one character the way CPython's `json.dumps` does with
`ensure_ascii=True`: printable ASCII is kept, the two-character escapes
are used for `\" \\ \n \r \t \b \f`, every other code point becomes
`\uXXXX` (a surrogate pair beyond the BMP). -/
def escChar (c : Char) : String :=
  if c = '"' then "\\\""
  else if c = '\\' then "\\\\"
  else if c = '\n' then "\\n"
  else if c = '\r' then "\\r"
  else if c = '\t' then "\\t"
  else if c.toNat = 8 then "\\b"
  else if c.toNat = 12 then "\\f"
  else if 32 ≤ c.toNat ∧ c.toNat ≤ 126 then String.singleton c
  else if c.toNat < 65536 then "\\u" ++ hex4 c.toNat
  else
    let v := c.toNat - 65536
    "\\u" ++ hex4 (55296 + v / 1024) ++ "\\u" ++ hex4 (56320 + v % 1024)

/-- Python `json.dumps` of a string value. -/
def pyStr (s : String) : String :=
  "\"" ++ String.join (s.data.map escChar) ++ "\""

mutual

/-- Python `json.dumps(value)` with the default parameters: item
separator `", "`, key separator `": "`, `ensure_ascii=True`. -/
def pyDumps : J → String
  | .null => "null"
  | .bool true => "true"
  | .bool false => "false"
  | .num n => toString n
  | .str s => pyStr s
  | .arr items => "[" ++ dumpsArr items ++ "]"
  | .obj kvs => "\x7b" ++ dumpsObj kvs ++ "\x7d"

/-- Comma-joined serialization of array items. -/
def dumpsArr : List J → String
  | [] => ""
  | [x] => pyDumps x
  | x :: y :: xs => pyDumps x ++ ", " ++ dumpsArr (y :: xs)

/-- Comma-joined serialization of object entries. -/
def dumpsObj : List (String × J) → String
  | [] => ""
  | [(k, v)] => pyStr k ++ ": " ++ pyDumps v
  | (k, v) :: e :: xs => pyStr k ++ ": " ++ pyDumps v ++ ", " ++ dumpsObj (e :: xs)

end

/-- Boolean key comparison used to sort object entries. -/
def keyLe (p q : String × J) : Bool := decide (p.1 ≤ q.1)

mutual

/-- Recursively sort every object's entries by key.  `json.dumps(x,
sort_keys=True)` (used by `generate_cache_key`) equals
`pyDumps (canon x)`. -/
def canon : J → J
  | .arr items => .arr (canonArr items)
  | .obj kvs => .obj ((canonKVs kvs).mergeSort keyLe)
  | x => x

/-- `canon` mapped over array items. -/
def canonArr : List J → List J
  | [] => []
  | x :: xs => canon x :: canonArr xs

/-- `canon` mapped over object entry values. -/
def canonKVs : List (String × J) → List (String × J)
  | [] => []
  | (k, v) :: xs => (k, canon v) :: canonKVs xs

end

/-! ### SHA-256 (the `hashlib.sha256(...).hexdigest()` call) -/

/-- Truncate to a 32-bit word. -/
def w32 (n : Nat) : Nat := n % 4294967296

/-- 32-bit right rotation. -/
def rotr (x n : Nat) : Nat := w32 (x / 2 ^ n + x % 2 ^ n * 2 ^ (32 - n))

/-- Bisection step for the integer cube root. -/
def icbrtGo (n : Nat) : Nat → Nat → Nat → Nat
  | lo, _, 0 => lo
  | lo, hi, fuel + 1 =>
    if hi ≤ lo + 1 then lo
    else
      let m := (lo + hi) / 2
      if m ^ 3 ≤ n then icbrtGo n m hi fuel else icbrtGo n lo m fuel

/-- Integer cube root (for arguments below `2 ^ 102`). -/
def icbrt (n : Nat) : Nat := icbrtGo n 0 (2 ^ 35) 60

/-- The first 64 primes, the source of the SHA-256 round constants. -/
def sha256Primes : List Nat :=
  [2, 3, 5, 7, 11, 13, 17, 19, 23, 29, 31, 37, 41, 43, 47, 53,
   59, 61, 67, 71, 73, 79, 83, 89, 97, 101, 103, 107, 109, 113, 127, 131,
   137, 139, 149, 151, 157, 163, 167, 173, 179, 181, 191, 193, 197, 199, 211, 223,
   227, 229, 233, 239, 241, 251, 257, 263, 269, 271, 277, 281, 283, 293, 307, 311]

/-- Round constants: fractional parts of the cube roots of the first 64
primes, scaled to 32 bits. -/
def sha256K : List Nat := sha256Primes.map (fun p => w32 (icbrt (p * 2 ^ 96)))

/-- Initial hash state: fractional parts of the square roots of the
first 8 primes, scaled to 32 bits. -/
def sha256H0 : List Nat := (sha256Primes.take 8).map (fun p => w32 (Nat.sqrt (p * 2 ^ 64)))

/-- SHA-256 padding: `0x80`, zeros to 56 mod 64, 8-byte big-endian bit
length. -/
def padMsg (msg : List Nat) : List Nat :=
  let L := msg.length
  let z := (119 - L % 64) % 64
  let bits := 8 * L
  msg ++ [128] ++ List.replicate z 0 ++
    [bits / 2 ^ 56 % 256, bits / 2 ^ 48 % 256, bits / 2 ^ 40 % 256, bits / 2 ^ 32 % 256,
     bits / 2 ^ 24 % 256, bits / 2 ^ 16 % 256, bits / 2 ^ 8 % 256, bits % 256]

/-- Split a byte list into 64-byte blocks. -/
def toBlocks : List Nat → List (List Nat)
  | [] => []
  | x :: xs => (x :: xs).take 64 :: toBlocks ((x :: xs).drop 64)
termination_by l => l.length
decreasing_by simp [List.length_drop]; omega

/-- Big-endian 32-bit words from bytes. -/
def toWords : List Nat → List Nat
  | a :: b :: c :: d :: rest => (a * 2 ^ 24 + b * 2 ^ 16 + c * 2 ^ 8 + d) :: toWords rest
  | _ => []

/-- One message-schedule extension step appending word `w[t]`. -/
def extendStep (w : List Nat) : List Nat :=
  let n := w.length
  let s0 := rotr (w.getD (n - 15) 0) 7 ^^^ rotr (w.getD (n - 15) 0) 18 ^^^ w.getD (n - 15) 0 / 2 ^ 3
  let s1 := rotr (w.getD (n - 2) 0) 17 ^^^ rotr (w.getD (n - 2) 0) 19 ^^^ w.getD (n - 2) 0 / 2 ^ 10
  w ++ [w32 (w.getD (n - 16) 0 + s0 + w.getD (n - 7) 0 + s1)]

/-- Extend the 16-word schedule to 64 words. -/
def extendSchedule : Nat → List Nat → List Nat
  | 0, w => w
  | k + 1, w => extendSchedule k (extendStep w)

/-- One SHA-256 compression round. -/
def compressStep (st : List Nat) (kw : Nat × Nat) : List Nat :=
  match st with
  | [a, b, c, d, e, f, g, h] =>
    let S1 := rotr e 6 ^^^ rotr e 11 ^^^ rotr e 25
    let ch := e &&& f ^^^ ((e ^^^ 4294967295) &&& g)
    let temp1 := w32 (h + S1 + ch + kw.1 + kw.2)
    let S0 := rotr a 2 ^^^ rotr a 13 ^^^ rotr a 22
    let maj := a &&& b ^^^ (a &&& c) ^^^ (b &&& c)
    let temp2 := w32 (S0 + maj)
    [w32 (temp1 + temp2), a, b, c, w32 (d + temp1), e, f, g]
  | other => other

/-- Compress one 64-byte block into the running hash state. -/
def compressBlock (h : List Nat) (block : List Nat) : List Nat :=
  let w := extendSchedule 48 (toWords block)
  let st := (sha256K.zip w).foldl compressStep h
  List.zipWith (fun a b => w32 (a + b)) h st

/-- Eight-hex-digit rendering of a 32-bit word. -/
def hex8 (n : Nat) : String :=
  hex4 (n / 65536) ++ hex4 (n % 65536)

/-- SHA-256 hex digest of a byte list. -/
def sha256hex (msg : List Nat) : String :=
  String.join (((toBlocks (padMsg msg)).foldl compressBlock sha256H0).map hex8)

/-- UTF-8 bytes of a string (`.encode('utf-8')`). -/
def strBytes (s : String) : List Nat := s.toUTF8.toList.map (fun b => b.toNat)

/-! ### `generate_cache_key` -/

/-- The parameters hashed by `generate_cache_key` (`services.py` lines
98–116).  `messages`/`tools` entries and `tool_choice` are arbitrary
JSON values supplied by the caller. -/
structure CacheReq where
  base_model_id : String
  messages : List J
  system_prompt : Option String
  tools : Option (List J)
  tool_choice : J
deriving Repr

/-- The `payload` dict built inside `generate_cache_key`, in source
key order. -/
def payloadJ (r : CacheReq) : J :=
  .obj [("model", .str r.base_model_id),
        ("messages", .arr r.messages),
        ("system", match r.system_prompt with | none => .null | some s => .str s),
        ("tools", match r.tools with | none => .null | some ts => .arr ts),
        ("tool_choice", r.tool_choice)]

/-- `generate_cache_key`: SHA-256 hex digest of the key-sorted JSON
serialization of the request payload. -/
def generate_cache_key (r : CacheReq) : String :=
  sha256hex (strBytes (pyDumps (canon (payloadJ r))))

/-! ### `format_stream_part` (the Event Encoder) -/

/-- Python truthiness of an optional string (`None` and `""` are falsy). -/
def truthyO : Option String → Bool
  | none => false
  | some s => !s.isEmpty

/-- The `prefix_map` lookup of `format_stream_part`. -/
def prefixCode : String → Option String
  | "text" => some "0"
  | "error" => some "3"
  | "finish_message" => some "d"
  | "tool_call" => some "1"
  | _ => none

/-- `format_stream_part` (`services.py` lines 42–71): one wire frame
`CODE:JSON\n`, or empty bytes for an unknown part type.  (`json.dumps`
is total on the modelled value universe `J`, so the fallback `except`
branches of the source are unreachable.)  Frames are modelled as the
strings whose UTF-8 encoding is the yielded bytes. -/
def format_stream_part (part_type : String) (value : J) : String :=
  match prefixCode part_type with
  | none => ""
  | some code => code ++ ":" ++ pyDumps value ++ "\n"

/-! ### Tool-call fragments and the assembler state -/

/-- One entry of `delta.tool_calls`: `id`, `function.name` and
`function.arguments` may each be absent. -/
structure Frag where
  id : Option String
  name : Option String
  args : Option String
deriving Repr, DecidableEq

/-- One tool-call buffer together with its key: the source keeps
`tool_call_buffers[internal_id] = {name, args_buffer, original_id}`
plus `tool_call_order`; buffers and order entries are created together,
so they are fused into one insertion-ordered list. -/
structure Buf where
  iid : String
  name : String
  argsBuf : String
  origId : Option String
deriving Repr, DecidableEq

/-- Assembler state: ordered buffers, the `current_tool_call_id`
tracker and the `tool_call_internal_index` counter. -/
structure Asm where
  bufs : List Buf
  current : Option String
  counter : Nat
deriving Repr, DecidableEq

/-- Initial assembler state. -/
def Asm.init : Asm := ⟨[], none, 0⟩

/-- The synthetic id `f"generated_{tool_call_internal_index}"`. -/
def genId (j : Nat) : String := "generated_" ++ toString j

/-- Append `a` to the `args_buffer` of the buffer keyed `iid`, if that
buffer exists (the source logs an error and drops the fragment
otherwise). -/
def appendArgs (s : Asm) (iid : String) (a : String) : Asm :=
  if s.bufs.any (fun b => b.iid = iid) then
    { s with bufs := s.bufs.map (fun b => if b.iid = iid then { b with argsBuf := b.argsBuf ++ a } else b) }
  else s

/-- Process one tool-call fragment: the revised buffering logic of
`services.py` lines 206–258. -/
def stepFrag (s : Asm) (f : Frag) : Asm :=
  if truthyO f.name then
    -- a name marks the start of a tool call
    let name := f.name.getD ""
    let iid := if truthyO f.id then f.id.getD "" else genId s.counter
    let counter' := if truthyO f.id then s.counter else s.counter + 1
    let s₁ :=
      if s.bufs.any (fun b => b.iid = iid) then
        { s with
          bufs := s.bufs.map (fun b =>
            if b.iid = iid then (if b.name ≠ name then { b with name := name } else b) else b),
          current := some iid, counter := counter' }
      else
        { bufs := s.bufs ++ [⟨iid, name, "", f.id⟩], current := some iid, counter := counter' }
    match f.args with
    | some a => if a ≠ "" then appendArgs s₁ iid a else s₁
    | none => s₁
  else
    match f.args with
    | some a =>
      if a ≠ "" ∧ ¬truthyO f.id then
        match s.current with
        | some cid => appendArgs s cid a
        | none => s
      else s
    | none => s

/-- Fold the assembler over a fragment list. -/
def processFrags (l : List Frag) (s : Asm) : Asm := l.foldl stepFrag s

/-- The `{name, arguments_json}` records, in arrival order, that the
post-stream loop reads out of the buffers. -/
def extractCalls (s : Asm) : List (String × String) :=
  s.bufs.map (fun b => (b.name, b.argsBuf))

/-! ### Provider chunks and the translator loop -/

/-- `choice.delta`: optional text content plus tool-call fragments
(an absent/empty fragment list behaves identically, so it is a plain
list). -/
structure Delta where
  content : Option String
  tool_calls : List Frag
deriving Repr, DecidableEq

/-- One element of `chunk.choices`. -/
structure Choice where
  delta : Option Delta
  finish_reason : Option String
deriving Repr, DecidableEq

/-- `chunk.usage` token counters (either may be `None`). -/
structure Usage where
  prompt_tokens : Option Nat
  completion_tokens : Option Nat
deriving Repr, DecidableEq

/-- One provider stream chunk. -/
structure Chunk where
  choices : List Choice
  usage : Option Usage
deriving Repr, DecidableEq

/-- One yielded protocol event, before encoding: the part type passed
to `format_stream_part` together with its payload. -/
structure StreamPart where
  tag : String
  value : J
deriving Repr

/-- Translator loop state: emitted parts, tracked finish reason and
usage counters, and the assembler. -/
structure TState where
  parts : List StreamPart
  finish_reason : String
  prompt_tokens : Nat
  completion_tokens : Nat
  asm : Asm
deriving Repr

/-- Loop state on entry (`finish_reason = "unknown"`, zero counters). -/
def TState.init : TState := ⟨[], "unknown", 0, 0, Asm.init⟩

/-- The text part for a content delta. -/
def textPart (s : String) : StreamPart := ⟨"text", .str s⟩

/-- The error part for a message. -/
def errorPart (msg : String) : StreamPart := ⟨"error", .str msg⟩

/-- The finish-message part built in the `finally` block. -/
def finishPart (reason : String) (pt ct : Nat) : StreamPart :=
  ⟨"finish_message",
   .obj [("finishReason", .str reason),
         ("usage", .obj [("promptTokens", .num pt), ("completionTokens", .num ct)])]⟩

/-- Consume one provider chunk: `services.py` lines 192–270.  Only the
first choice is examined; empty text deltas and empty finish reasons are
falsy and ignored; usage fields overwrite the running counters. -/
def processChunk (s : TState) (ch : Chunk) : TState :=
  let s₁ :=
    match ch.choices.head? with
    | none => s
    | some choice =>
      let s₁ :=
        match choice.delta with
        | none => s
        | some d =>
          let sText :=
            match d.content with
            | some t => if t ≠ "" then { s with parts := s.parts ++ [textPart t] } else s
            | none => s
          { sText with asm := processFrags d.tool_calls sText.asm }
      match choice.finish_reason with
      | some r => if r ≠ "" then { s₁ with finish_reason := r } else s₁
      | none => s₁
  match ch.usage with
  | some u =>
    { s₁ with prompt_tokens := u.prompt_tokens.getD 0,
              completion_tokens := u.completion_tokens.getD 0 }
  | none => s₁

/-- The provider-side faults of the consolidated `except` chain
(`services.py` lines 306–355). -/
inductive Fault where
  | notFound
  | timeout
  | connectError
  | apiConnectionError
  | rateLimit
  | apiStatus (status : Nat)
  | unexpected
deriving Repr, DecidableEq

/-- The error message each handler formats. -/
def faultMsg (base_model_id base_url : String) : Fault → String
  | .notFound => "Error: The model \x27" ++ base_model_id ++ "\x27 was not found or is inaccessible."
  | .timeout => "Error: The request to the AI service timed out."
  | .connectError => "Error: Could not connect to the AI service (" ++ base_url ++ ")."
  | .apiConnectionError => "Error: Could not connect to the AI service (" ++ base_url ++ ")."
  | .rateLimit => "Error: AI service rate limit exceeded. Please try again later."
  | .apiStatus code => "Error: The AI service returned an error (Status " ++ toString code ++ ")."
  | .unexpected => "Error: An unexpected error occurred processing the AI response."

/-- The tool-call parts emitted after the loop when the stream finished
with `tool_calls` (`services.py` lines 276–304): one per buffer in
arrival order, with the provider id when truthy, else the internal id.
(`args_buffer` is always a string, so the re-serialization and per-call
error branches of the source are unreachable.) -/
def toolCallParts (a : Asm) : List StreamPart :=
  a.bufs.map (fun b =>
    ⟨"tool_call",
     .obj [("id", .str (if truthyO b.origId then b.origId.getD "" else b.iid)),
           ("function_call", .obj [("name", .str b.name), ("arguments", .str b.argsBuf)])]⟩)

/-- A provider stream as seen by the loop: the chunks successfully
consumed, then either normal exhaustion (`none`) or a raised fault. -/
def streamMissParts (base_model_id base_url : String)
    (chunks : List Chunk) (fault : Option Fault) : List StreamPart :=
  let s := chunks.foldl processChunk TState.init
  match fault with
  | some f =>
    -- except-handler: error part, finish_reason = "error", then the
    -- finally block appends the finish message with the tracked counters
    s.parts ++ [errorPart (faultMsg base_model_id base_url f)]
      ++ [finishPart "error" s.prompt_tokens s.completion_tokens]
  | none =>
    if s.finish_reason = "tool_calls" then
      s.parts ++ toolCallParts s.asm
    else
      s.parts ++ [finishPart s.finish_reason s.prompt_tokens s.completion_tokens]

/-- The encoded byte frames of a cache-miss stream, in yield order. -/
def streamMissFrames (base_model_id base_url : String)
    (chunks : List Chunk) (fault : Option Fault) : List String :=
  (streamMissParts base_model_id base_url chunks fault).map
    (fun p => format_stream_part p.tag p.value)

/-! ### The in-memory cache and the full generator -/

/-- The process-wide `llm_cache` dict. -/
def Cache := List (String × List String)

/-- Dict lookup. -/
def Cache.find : Cache → String → Option (List String)
  | [], _ => none
  | (k, v) :: rest, key => if k = key then some v else Cache.find rest key

/-- Dict store (`llm_cache[cache_key] = ...`). -/
def Cache.store : Cache → String → List String → Cache
  | [], key, v => [(key, v)]
  | (k, w) :: rest, key, v =>
    if k = key then (k, v) :: rest else (k, w) :: Cache.store rest key v

/-- One invocation of `stream_openai_compatible_response`: on a cache
hit the stored frames are replayed verbatim and the provider client is
never called; on a miss the provider stream is consumed, every yielded
frame is also buffered, and a non-empty buffer is committed to the
cache after the final yield.  Returns (yielded frames, cache after the
call, whether the provider client was invoked). -/
def runRelay (cache : Cache) (req : CacheReq)
    (chunks : List Chunk) (fault : Option Fault) :
    List String × Cache × Bool :=
  let key := generate_cache_key req
  match cache.find key with
  | some stored => (stored, cache, false)
  | none =>
    let out := streamMissFrames req.base_model_id "base_url" chunks fault
    (out, if out = [] then cache else cache.store key out, true)

/-! ### Apparatus for the fragmentation-invariance claim (C1) -/

/-- A complete logical tool call as the provider means it: optional
provider id, function name, full argument string. -/
structure TCall where
  id : Option String
  name : String
  args : String
deriving Repr, DecidableEq

/-- The single fragment carrying a whole call at once. -/
def combinedFrag (c : TCall) : Frag := ⟨c.id, some c.name, some c.args⟩

/-- A fragment that carries neither a (truthy) name nor any argument
text: an id-only, empty or completely blank fragment.  Such fragments
never change the assembler state. -/
def inertFrag (f : Frag) : Bool := !truthyO f.name && (f.args.getD "" == "")

/-- A bare argument fragment: no truthy name, no truthy id, an
arguments field present. -/
def argPieceFrag (f : Frag) : Bool := !truthyO f.name && !truthyO f.id && f.args.isSome

/-- The argument text a fragment carries (empty when absent). -/
def fragArgsStr (f : Frag) : String := f.args.getD ""

/-- Concatenated argument text of a fragment list. -/
def piecesConcat (l : List Frag) : String :=
  l.foldr (fun f acc => fragArgsStr f ++ acc) ""

/-- `isValidSplit c frags`: `frags` is a faithful splitting of the call
`c` into provider fragments, in arrival order: optional inert
fragments (e.g. the id arriving on its own), then the one fragment
carrying the name (with the call's id or with no id), then argument
pieces (arbitrarily fine, e.g. one character at a time) possibly
interleaved with further inert fragments, concatenating to the call's
argument string. -/
def isValidSplit (c : TCall) : List Frag → Bool
  | [] => false
  | f :: fs =>
    if inertFrag f then isValidSplit c fs
    else
      truthyO f.name && f.name == some c.name &&
      (!truthyO f.id || f.id == c.id) &&
      fs.all (fun g => inertFrag g || argPieceFrag g) &&
      fragArgsStr f ++ piecesConcat fs == c.args

/-- The truthy provider ids of a call list. -/
def truthyIds (calls : List TCall) : List String :=
  calls.filterMap (fun c => if truthyO c.id then c.id else none)

/-! ### Apparatus for the fingerprint claim (C4) -/

mutual

/-- Two JSON values with identical field values, independent of the
ordering of keys inside any map: leaves must agree, arrays agree
pointwise, and objects agree up to a permutation of their entries with
equal keys and equivalent values. -/
inductive JEquiv : J → J → Prop
  | null : JEquiv .null .null
  | bool (b : Bool) : JEquiv (.bool b) (.bool b)
  | num (n : Int) : JEquiv (.num n) (.num n)
  | str (s : String) : JEquiv (.str s) (.str s)
  | arr {xs ys : List J} : JEquivList xs ys → JEquiv (.arr xs) (.arr ys)
  | obj {kvs l kvs' : List (String × J)} :
      JEquivKVs kvs l → List.Perm l kvs' → JEquiv (.obj kvs) (.obj kvs')

/-- Pointwise `JEquiv` on arrays. -/
inductive JEquivList : List J → List J → Prop
  | nil : JEquivList [] []
  | cons {x y : J} {xs ys : List J} :
      JEquiv x y → JEquivList xs ys → JEquivList (x :: xs) (y :: ys)

/-- Pointwise key-preserving `JEquiv` on object entries. -/
inductive JEquivKVs : List (String × J) → List (String × J) → Prop
  | nil : JEquivKVs [] []
  | cons (k : String) {v w : J} {kvs l : List (String × J)} :
      JEquiv v w → JEquivKVs kvs l → JEquivKVs ((k, v) :: kvs) ((k, w) :: l)

end

mutual

/-- Every object in the value has pairwise-distinct keys (guaranteed
for values that come from Python dicts). -/
def nodupKeys : J → Bool
  | .null => true
  | .bool _ => true
  | .num _ => true
  | .str _ => true
  | .arr xs => nodupKeysList xs
  | .obj kvs => decide (kvs.map Prod.fst).Nodup && nodupKeysKVs kvs

/-- `nodupKeys` over array items. -/
def nodupKeysList : List J → Bool
  | [] => true
  | x :: xs => nodupKeys x && nodupKeysList xs

/-- `nodupKeys` over object entry values. -/
def nodupKeysKVs : List (String × J) → Bool
  | [] => true
  | (_, v) :: xs => nodupKeys v && nodupKeysKVs xs

end

/-- Componentwise key-order-insensitive equality of two requests'
fingerprinted fields. -/
def ReqEquiv (r₁ r₂ : CacheReq) : Prop :=
  r₁.base_model_id = r₂.base_model_id ∧
  JEquivList r₁.messages r₂.messages ∧
  r₁.system_prompt = r₂.system_prompt ∧
  (match r₁.tools, r₂.tools with
   | none, none => True
   | some t₁, some t₂ => JEquivList t₁ t₂
   | _, _ => False) ∧
  JEquiv r₁.tool_choice r₂.tool_choice

/-! ### Concrete scenarios from the specification -/

/-- The chunk sequence of the spec's happy-path scenario:
`{content:"Hel"}`, `{content:"lo"}`, `{finish_reason:"stop",
usage:{prompt:3, completion:2}}`. -/
def helloChunks : List Chunk :=
  [⟨[⟨some ⟨some "Hel", []⟩, none⟩], none⟩,
   ⟨[⟨some ⟨some "lo", []⟩, none⟩], none⟩,
   ⟨[⟨none, some "stop"⟩], some ⟨some 3, some 2⟩⟩]

/-- A chunk carrying only usage counters. -/
def usageChunk : Chunk := ⟨[], some ⟨some 3, some 2⟩⟩

/-- A degenerate stream: `finish_reason = "tool_calls"` without any
tool-call fragment. -/
def bareToolCallsFinish : List Chunk := [⟨[⟨none, some "tool_calls"⟩], none⟩]


/-! ### Concrete inputs used by the witnesses -/

/-- A request whose single message dict lists the role key before the content key. -/
def reqA : CacheReq :=
  ⟨"gpt-4o", [J.obj [("role", .str "user"), ("content", .str "hi")]], some "sys", none, .str "auto"⟩

/-- The same request with the two message keys in the opposite order. -/
def reqB : CacheReq :=
  ⟨"gpt-4o", [J.obj [("content", .str "hi"), ("role", .str "user")]], some "sys", none, .str "auto"⟩

/-- Two tool calls, one with a provider id and one without. -/
def wCalls : List TCall :=
  [⟨some "call_1", "getWeather", "\x7b\"lat\": 1\x7d"⟩, ⟨none, "getTime", "\x7b\x7d"⟩]

/-- A fragmentation of wCalls: the first call's id arrives alone, then its
name, then its arguments in four pieces; the second call splits its braces
across two fragments. -/
def wSplits : List (List Frag) :=
  [[⟨some "call_1", none, none⟩, ⟨none, some "getWeather", none⟩,
    ⟨none, none, some "\x7b"⟩, ⟨none, none, some "\"lat\""⟩, ⟨none, none, some ":"⟩,
    ⟨none, none, some " 1\x7d"⟩],
   [⟨none, some "getTime", some "\x7b"⟩, ⟨none, none, some "\x7d"⟩]]

/-- A sample request for the cache-replay witness. -/
def sampleReq : CacheReq :=
  ⟨"gpt-4o", [J.obj [("role", .str "user"), ("content", .str "hi")]], none, none, .str "auto"⟩

/-! ### Lemmas and claim theorems -/

theorem processChunk_parts (s : TState) (ch : Chunk) :
    ∃ ts, (processChunk s ch).parts = s.parts ++ ts ∧ ∀ p ∈ ts, p.tag = "text" := by
  unfold processChunk
  rcases hu : ch.usage with _ | u <;> rcases hc : ch.choices.head? with _ | ⟨delta, fr⟩
  · exact ⟨[], by simp⟩
  · rcases delta with _ | ⟨content, tool_calls⟩
    · rcases fr with _ | r
      · exact ⟨[], by simp⟩
      · by_cases hr : r ≠ "" <;> refine ⟨[], ?_, by simp⟩ <;> simp [hr]
    · rcases content with _ | t
      · rcases fr with _ | r
        · exact ⟨[], by simp⟩
        · by_cases hr : r ≠ "" <;> refine ⟨[], ?_, by simp⟩ <;> simp [hr]
      · by_cases ht : t ≠ ""
        · rcases fr with _ | r
          · refine ⟨[textPart t], ?_, by simp [textPart]⟩
            simp [ht]
          · by_cases hr : r ≠ "" <;> refine ⟨[textPart t], ?_, by simp [textPart]⟩ <;> simp [ht, hr]
        · rcases fr with _ | r
          · refine ⟨[], ?_, by simp⟩
            simp [ht]
          · by_cases hr : r ≠ "" <;> refine ⟨[], ?_, by simp⟩ <;> simp [ht, hr]
  · exact ⟨[], by simp⟩
  · rcases delta with _ | ⟨content, tool_calls⟩
    · rcases fr with _ | r
      · exact ⟨[], by simp⟩
      · by_cases hr : r ≠ "" <;> refine ⟨[], ?_, by simp⟩ <;> simp [hr]
    · rcases content with _ | t
      · rcases fr with _ | r
        · exact ⟨[], by simp⟩
        · by_cases hr : r ≠ "" <;> refine ⟨[], ?_, by simp⟩ <;> simp [hr]
      · by_cases ht : t ≠ ""
        · rcases fr with _ | r
          · refine ⟨[textPart t], ?_, by simp [textPart]⟩
            simp [ht]
          · by_cases hr : r ≠ "" <;> refine ⟨[textPart t], ?_, by simp [textPart]⟩ <;> simp [ht, hr]
        · rcases fr with _ | r
          · refine ⟨[], ?_, by simp⟩
            simp [ht]
          · by_cases hr : r ≠ "" <;> refine ⟨[], ?_, by simp⟩ <;> simp [ht, hr]

theorem foldl_processChunk_parts (chunks : List Chunk) :
    ∀ s : TState, ∃ ts, (chunks.foldl processChunk s).parts = s.parts ++ ts ∧
      ∀ p ∈ ts, p.tag = "text" := by
  induction chunks with
  | nil => exact fun s => ⟨[], by simp⟩
  | cons ch rest ih =>
    intro s
    obtain ⟨ts₁, h₁, ht₁⟩ := processChunk_parts s ch
    obtain ⟨ts₂, h₂, ht₂⟩ := ih (processChunk s ch)
    refine ⟨ts₁ ++ ts₂, ?_, ?_⟩
    · simp [List.foldl_cons, h₂, h₁]
    · intro p hp
      rcases List.mem_append.1 hp with h | h
      · exact ht₁ p h
      · exact ht₂ p h

theorem toolCallParts_tags (a : Asm) : ∀ p ∈ toolCallParts a, p.tag = "tool_call" := by
  intro p hp
  obtain ⟨b, _, rfl⟩ := List.mem_map.1 hp
  rfl

theorem toolCallParts_length (a : Asm) : (toolCallParts a).length = a.bufs.length := by
  simp [toolCallParts]

-- countP of text-only lists
theorem countP_of_text (ts : List StreamPart) (h : ∀ p ∈ ts, p.tag = "text")
    (tag : String) (htag : tag ≠ "text") :
    ts.countP (fun p => p.tag == tag) = 0 := by
  rw [List.countP_eq_zero]
  intro p hp
  simp [h p hp, htag, Ne.symm htag]


/-- C5: the event encoder is total and never raises for any of the four
event variants: for every payload (control characters, empty strings and
escaped code points included) it returns the non-empty frame
`code:json-newline`. -/
theorem format_stream_part_total_on_variants (v : J) :
    format_stream_part "text" v = "0:" ++ (pyDumps v ++ "\n") ∧
    format_stream_part "tool_call" v = "1:" ++ (pyDumps v ++ "\n") ∧
    format_stream_part "error" v = "3:" ++ (pyDumps v ++ "\n") ∧
    format_stream_part "finish_message" v = "d:" ++ (pyDumps v ++ "\n") ∧
    0 < (format_stream_part "text" v).length ∧
    0 < (format_stream_part "tool_call" v).length ∧
    0 < (format_stream_part "error" v).length ∧
    0 < (format_stream_part "finish_message" v).length := by
  refine ⟨?_, ?_, ?_, ?_, ?_, ?_, ?_, ?_⟩ <;>
    simp [format_stream_part, prefixCode, String.length_append, ← String.append_assoc] <;>
    exact Or.inl (Or.inl (by decide))

/-- C9: for every part type outside the four known variants the encoder
returns the empty byte string rather than a framed event or an exception. -/
theorem unknown_part_type_empty_bytes (pt : String) (v : J)
    (h1 : pt ≠ "text") (h2 : pt ≠ "error") (h3 : pt ≠ "finish_message") (h4 : pt ≠ "tool_call") :
    format_stream_part pt v = "" := by
  have hpc : prefixCode pt = none := by
    unfold prefixCode
    split <;> simp_all
  simp [format_stream_part, hpc]

theorem unknown_part_type_empty_bytes_witness :
    ("data" ≠ "text" ∧ "data" ≠ "error" ∧ "data" ≠ "finish_message" ∧ "data" ≠ "tool_call") ∧
    format_stream_part "data" J.null = "" :=
  ⟨⟨by decide, by decide, by decide, by decide⟩,
   unknown_part_type_empty_bytes "data" J.null (by decide) (by decide) (by decide) (by decide)⟩

/-- C10: a tool-call fragment carrying an arguments string and a truthy
provider id but no function name leaves the assembler state unchanged: its
arguments are silently dropped even when the id matches an open buffer. -/
theorem orphan_args_with_id_dropped (s : Asm) (f : Frag) (a : String)
    (hid : truthyO f.id = true) (hname : truthyO f.name = false) (hargs : f.args = some a) :
    stepFrag s f = s := by
  simp [stepFrag, hname, hargs, hid]

/-- C2: every cache-miss stream emits exactly one finish-message frame, as its
last event, unless the terminal reason is `tool_calls`, in which case zero
generic finish messages and exactly one tool-call frame per assembled call
are emitted. -/
theorem stream_finish_frame_discipline (m u : String) (chunks : List Chunk) (fault : Option Fault) :
    if fault = none ∧ (chunks.foldl processChunk TState.init).finish_reason = "tool_calls" then
      (streamMissParts m u chunks fault).countP (fun p => p.tag == "finish_message") = 0 ∧
      (streamMissParts m u chunks fault).countP (fun p => p.tag == "tool_call") =
        (chunks.foldl processChunk TState.init).asm.bufs.length
    else
      (streamMissParts m u chunks fault).countP (fun p => p.tag == "finish_message") = 1 ∧
      (streamMissParts m u chunks fault).getLast? =
        some (finishPart
          (if fault = none then (chunks.foldl processChunk TState.init).finish_reason else "error")
          (chunks.foldl processChunk TState.init).prompt_tokens
          (chunks.foldl processChunk TState.init).completion_tokens) := by
  obtain ⟨ts, hts, htext⟩ := foldl_processChunk_parts chunks TState.init
  have hparts : (chunks.foldl processChunk TState.init).parts = ts := by simpa using hts
  rcases fault with _ | f
  · by_cases hfr : (chunks.foldl processChunk TState.init).finish_reason = "tool_calls"
    · rw [if_pos ⟨rfl, hfr⟩]
      have hout : streamMissParts m u chunks none =
          (chunks.foldl processChunk TState.init).parts ++
            toolCallParts (chunks.foldl processChunk TState.init).asm := by
        unfold streamMissParts; simp [hfr]
      rw [hout, hparts]
      constructor
      · rw [List.countP_append, countP_of_text ts htext _ (by decide)]
        rw [List.countP_eq_zero.2 (fun p hp => by
          simp [toolCallParts_tags _ p hp])]
      · rw [List.countP_append, countP_of_text ts htext _ (by decide)]
        rw [List.countP_eq_length.2 (fun p hp => by
          simp [toolCallParts_tags _ p hp]), toolCallParts_length]
        omega
    · rw [if_neg (fun hx => hfr hx.2)]
      have hout : streamMissParts m u chunks none =
          (chunks.foldl processChunk TState.init).parts ++
            [finishPart (chunks.foldl processChunk TState.init).finish_reason
              (chunks.foldl processChunk TState.init).prompt_tokens
              (chunks.foldl processChunk TState.init).completion_tokens] := by
        unfold streamMissParts; simp [hfr]
      rw [hout, hparts]
      constructor
      · rw [List.countP_append, countP_of_text ts htext _ (by decide)]
        simp [finishPart]
      · rw [List.getLast?_concat]
        simp
  · rw [if_neg (by simp)]
    have hout : streamMissParts m u chunks (some f) =
        (chunks.foldl processChunk TState.init).parts ++
          [errorPart (faultMsg m u f)] ++
          [finishPart "error" (chunks.foldl processChunk TState.init).prompt_tokens
            (chunks.foldl processChunk TState.init).completion_tokens] := by
      unfold streamMissParts
      rfl
    rw [hout]
    constructor
    · rw [List.countP_append, List.countP_append, hparts, countP_of_text ts htext _ (by decide)]
      simp [errorPart, finishPart]
    · rw [List.getLast?_concat]
      simp

/-- C6 (amended): on any provider-side fault during a cache-miss stream the
translator emits exactly one error event describing the failure, followed by
the terminal finish message with reason `error` carrying the last tracked
token counters (0 only if none were reported before the fault). -/
theorem fault_emits_single_error_then_tracked_finish (m u : String) (chunks : List Chunk) (f : Fault) :
    streamMissParts m u chunks (some f) =
      (chunks.foldl processChunk TState.init).parts ++
        [errorPart (faultMsg m u f),
         finishPart "error" (chunks.foldl processChunk TState.init).prompt_tokens
           (chunks.foldl processChunk TState.init).completion_tokens] ∧
    (streamMissParts m u chunks (some f)).countP (fun p => p.tag == "error") = 1 ∧
    (streamMissParts m u chunks (some f)).getLast? =
      some (finishPart "error" (chunks.foldl processChunk TState.init).prompt_tokens
        (chunks.foldl processChunk TState.init).completion_tokens) := by
  obtain ⟨ts, hts, htext⟩ := foldl_processChunk_parts chunks TState.init
  have hparts : (chunks.foldl processChunk TState.init).parts = ts := by simpa using hts
  have hout : streamMissParts m u chunks (some f) =
      (chunks.foldl processChunk TState.init).parts ++
        [errorPart (faultMsg m u f)] ++
        [finishPart "error" (chunks.foldl processChunk TState.init).prompt_tokens
          (chunks.foldl processChunk TState.init).completion_tokens] := by
    unfold streamMissParts; rfl
  refine ⟨by rw [hout]; simp, ?_, ?_⟩
  · rw [hout, List.countP_append, List.countP_append, hparts,
      countP_of_text ts htext _ (by decide)]
    simp [errorPart, finishPart]
  · rw [hout, List.getLast?_concat]

-- C6 counterexample: a usage chunk arrives, then the provider times out;
/-- C6 (counterexample): when a usage chunk precedes the fault, the terminal
frame carries the tracked counters 3/2 and differs from the zero-usage frame
the claim asserts. -/
theorem fault_finish_zero_usage_counterexample :
    streamMissFrames "m" "u" [usageChunk] (some .timeout) =
      ["3:\"Error: The request to the AI service timed out.\"\n",
       "d:\x7b\"finishReason\": \"error\", \"usage\": \x7b\"promptTokens\": 3, \"completionTokens\": 2\x7d\x7d\n"] ∧
    ("d:\x7b\"finishReason\": \"error\", \"usage\": \x7b\"promptTokens\": 3, \"completionTokens\": 2\x7d\x7d\n" : String) ≠
      "d:\x7b\"finishReason\": \"error\", \"usage\": \x7b\"promptTokens\": 0, \"completionTokens\": 0\x7d\x7d\n" :=
  ⟨by decide, by decide⟩

/-- C7 (counterexample): the output of the happy-path scenario differs from
the claimed byte string, because `json.dumps` with default separators writes
a space after every colon and comma in the finish-message payload. -/
theorem hello_scenario_bytes_counterexample :
    String.join (streamMissFrames "gpt-4o" "u" helloChunks none) ≠
      "0:\"Hel\"\n0:\"lo\"\nd:\x7b\"finishReason\":\"stop\",\"usage\":\x7b\"promptTokens\":3,\"completionTokens\":2\x7d\x7d\n" := by
  decide

/-- C7 (amended): the happy-path scenario produces exactly these bytes, with
the default `json.dumps` separators in the `d:` frame. -/
theorem hello_scenario_exact_bytes :
    String.join (streamMissFrames "gpt-4o" "u" helloChunks none) =
      "0:\"Hel\"\n0:\"lo\"\nd:\x7b\"finishReason\": \"stop\", \"usage\": \x7b\"promptTokens\": 3, \"completionTokens\": 2\x7d\x7d\n" := by
  rfl

/-- C8 (counterexample): a stream whose terminal reason is `tool_calls` but
which assembled no tool call produces an empty byte sequence, so the output
is not always non-empty and terminated. -/
theorem empty_stream_counterexample :
    streamMissFrames "m" "u" bareToolCallsFinish none = [] := rfl

/-- C8 (amended): unless the terminal reason is `tool_calls` with no
assembled call, the emitted sequence is non-empty and its last event is a
finish message or a tool-call frame (never text or error, never empty). -/
theorem stream_termination_amended (m u : String) (chunks : List Chunk) (fault : Option Fault)
    (h : fault = none → (chunks.foldl processChunk TState.init).finish_reason = "tool_calls" →
      (chunks.foldl processChunk TState.init).asm.bufs ≠ []) :
    streamMissParts m u chunks fault ≠ [] ∧
    ∃ p, (streamMissParts m u chunks fault).getLast? = some p ∧
      (p.tag = "finish_message" ∨ p.tag = "tool_call") := by
  rcases fault with _ | f
  · by_cases hfr : (chunks.foldl processChunk TState.init).finish_reason = "tool_calls"
    · have hbufs := h rfl hfr
      have hout : streamMissParts m u chunks none =
          (chunks.foldl processChunk TState.init).parts ++
            toolCallParts (chunks.foldl processChunk TState.init).asm := by
        unfold streamMissParts; simp [hfr]
      have htc : toolCallParts (chunks.foldl processChunk TState.init).asm ≠ [] := by
        intro hx
        exact hbufs (by simpa [toolCallParts] using congrArg List.length hx)
      constructor
      · rw [hout]
        intro hx
        exact htc (List.append_eq_nil.1 hx).2
      · obtain ⟨q, hq⟩ := Option.isSome_iff_exists.1
          (List.getLast?_isSome.2 htc)
        refine ⟨q, ?_, Or.inr (toolCallParts_tags _ q (List.mem_of_mem_getLast? hq))⟩
        rw [hout, List.getLast?_append_of_ne_nil _ htc, hq]
    · have hout : streamMissParts m u chunks none =
          (chunks.foldl processChunk TState.init).parts ++
            [finishPart (chunks.foldl processChunk TState.init).finish_reason
              (chunks.foldl processChunk TState.init).prompt_tokens
              (chunks.foldl processChunk TState.init).completion_tokens] := by
        unfold streamMissParts; simp [hfr]
      refine ⟨by rw [hout]; simp, ?_⟩
      exact ⟨_, by rw [hout, List.getLast?_concat], Or.inl rfl⟩
  · have hout : streamMissParts m u chunks (some f) =
        (chunks.foldl processChunk TState.init).parts ++
          [errorPart (faultMsg m u f)] ++
          [finishPart "error" (chunks.foldl processChunk TState.init).prompt_tokens
            (chunks.foldl processChunk TState.init).completion_tokens] := by
      unfold streamMissParts; rfl
    refine ⟨by rw [hout]; simp, ?_⟩
    exact ⟨_, by rw [hout, List.getLast?_concat], Or.inl rfl⟩

theorem stream_termination_amended_witness :
    ((none : Option Fault) = none →
      (helloChunks.foldl processChunk TState.init).finish_reason = "tool_calls" →
      (helloChunks.foldl processChunk TState.init).asm.bufs ≠ []) ∧
    (streamMissParts "m" "u" helloChunks none ≠ [] ∧
     ∃ p, (streamMissParts "m" "u" helloChunks none).getLast? = some p ∧
       (p.tag = "finish_message" ∨ p.tag = "tool_call")) :=
  ⟨fun _ hfr => absurd hfr (by decide),
   stream_termination_amended "m" "u" helloChunks none
     (fun _ hfr => absurd hfr (by decide))⟩

theorem orphan_args_with_id_dropped_witness :
    (truthyO (some "c1") = true ∧ truthyO (none : Option String) = false ∧
      (Frag.mk (some "c1") none (some "\x7b\"lat\": 1\x7d")).args = some "\x7b\"lat\": 1\x7d") ∧
    stepFrag (processFrags [⟨some "c1", some "getWeather", none⟩] Asm.init)
      ⟨some "c1", none, some "\x7b\"lat\": 1\x7d"⟩ =
      processFrags [⟨some "c1", some "getWeather", none⟩] Asm.init :=
  ⟨⟨rfl, rfl, rfl⟩,
   orphan_args_with_id_dropped (processFrags [⟨some "c1", some "getWeather", none⟩] Asm.init)
     ⟨some "c1", none, some "\x7b\"lat\": 1\x7d"⟩ "\x7b\"lat\": 1\x7d" rfl rfl rfl⟩

theorem Cache.find_store (c : Cache) (k : String) (v : List String) :
    (Cache.store c k v).find k = some v := by
  induction c with
  | nil => simp [Cache.store, Cache.find]
  | cons p rest ih =>
    by_cases h : p.1 = k <;> simp [Cache.store, Cache.find, h, ih]

/-- C3: once a cache miss has stored its frames, every later run with the
same fingerprint replays exactly the stored byte sequence in order, leaves
the cache unchanged, and makes no call to the provider client, regardless of
what the provider would now stream. -/
theorem cache_hit_replay_byte_identical (cache : Cache) (req : CacheReq)
    (chunks : List Chunk) (fault : Option Fault)
    (hmiss : cache.find (generate_cache_key req) = none)
    (hne : streamMissFrames req.base_model_id "base_url" chunks fault ≠ []) :
    ∀ (chunks' : List Chunk) (fault' : Option Fault),
      runRelay ((runRelay cache req chunks fault).2.1) req chunks' fault' =
        ((runRelay cache req chunks fault).1, (runRelay cache req chunks fault).2.1, false) := by
  intro chunks' fault'
  have h1 : runRelay cache req chunks fault =
      (streamMissFrames req.base_model_id "base_url" chunks fault,
       Cache.store cache (generate_cache_key req)
         (streamMissFrames req.base_model_id "base_url" chunks fault),
       true) := by
    simp [runRelay, hmiss, hne]
  rw [h1]
  simp [runRelay, Cache.find_store]

theorem canonKVs_eq_map (kvs : List (String × J)) :
    canonKVs kvs = kvs.map (fun p => (p.1, canon p.2)) := by
  induction kvs with
  | nil => rfl
  | cons p rest ih => cases p; simp [canonKVs, ih]

theorem keys_of_JEquivKVs {kvs l : List (String × J)} (h : JEquivKVs kvs l) :
    kvs.map Prod.fst = l.map Prod.fst := by
  induction kvs generalizing l with
  | nil => cases h; rfl
  | cons p rest ih =>
    cases h with
    | cons k hv hrest => simp [ih hrest]

theorem keyLe_trans (a b c : String × J) (h1 : keyLe a b = true) (h2 : keyLe b c = true) :
    keyLe a c = true :=
  decide_eq_true (le_trans (of_decide_eq_true h1) (of_decide_eq_true h2))

theorem keyLe_total (a b : String × J) : (keyLe a b || keyLe b a) = true := by
  unfold keyLe
  rcases le_total a.1 b.1 with h | h
  · rw [decide_eq_true h]
    rfl
  · rw [decide_eq_true h]
    simp

theorem mergeSort_eq_of_perm_nodupKeys (l₁ l₂ : List (String × J))
    (hp : l₁.Perm l₂) (hnd : (l₁.map Prod.fst).Nodup) :
    l₁.mergeSort keyLe = l₂.mergeSort keyLe := by
  haveI : IsAntisymm (String × J) (fun p q => p.1 < q.1) :=
    ⟨fun a b h1 h2 => absurd (h1.trans h2) (lt_irrefl _)⟩
  have hperm : (l₁.mergeSort keyLe).Perm (l₂.mergeSort keyLe) :=
    (List.mergeSort_perm l₁ keyLe).trans (hp.trans (List.mergeSort_perm l₂ keyLe).symm)
  have hs₁ := List.sorted_mergeSort keyLe_trans keyLe_total l₁
  have hs₂ := List.sorted_mergeSort keyLe_trans keyLe_total l₂
  have hnd₁ : ((l₁.mergeSort keyLe).map Prod.fst).Nodup :=
    (((List.mergeSort_perm l₁ keyLe).map Prod.fst).symm).nodup hnd
  have hnd₂ : ((l₂.mergeSort keyLe).map Prod.fst).Nodup :=
    (((List.mergeSort_perm l₂ keyLe).map Prod.fst).symm).nodup ((hp.map Prod.fst).nodup hnd)
  have strict : ∀ (l : List (String × J)),
      List.Pairwise (fun a b => keyLe a b = true) l → (l.map Prod.fst).Nodup →
      List.Sorted (fun p q => p.1 < q.1) l := by
    intro l hle hnd'
    have hne : List.Pairwise (fun p q : String × J => p.1 ≠ q.1) l :=
      List.pairwise_map.1 hnd'
    exact (hle.and hne).imp (fun h => by
      rcases h with ⟨h1, h2⟩
      exact lt_of_le_of_ne (of_decide_eq_true h1) h2)
  exact List.eq_of_perm_of_sorted hperm (strict _ hs₁ hnd₁) (strict _ hs₂ hnd₂)

theorem canon_eq_aux : ∀ (n : Nat) (a b : J), sizeOf a < n → JEquiv a b →
    nodupKeys a = true → canon a = canon b := by
  intro n
  induction n with
  | zero => intro a b h; omega
  | succ n ih =>
    intro a b hsz heq hnd
    cases heq with
    | null => rfl
    | bool b => rfl
    | num m => rfl
    | str s => rfl
    | arr hl =>
      rename_i xs ys
      have hxs : sizeOf xs < n := by
        have : sizeOf (J.arr xs) = 1 + sizeOf xs := by simp
        omega
      have hndl : nodupKeysList xs = true := by simpa [nodupKeys] using hnd
      show J.arr (canonArr xs) = J.arr (canonArr ys)
      congr 1
      clear hsz hnd
      induction xs generalizing ys with
      | nil => cases hl; rfl
      | cons x xs' ihx =>
        cases hl with
        | cons hx hxs' =>
          rename_i y ys'
          have hszx : sizeOf x < n := by
            have : sizeOf (x :: xs') = 1 + sizeOf x + sizeOf xs' := by simp
            omega
          have hszxs' : sizeOf xs' < n := by
            have : sizeOf (x :: xs') = 1 + sizeOf x + sizeOf xs' := by simp
            omega
          have hnd1 : nodupKeys x = true := by
            simp [nodupKeysList, Bool.and_eq_true] at hndl
            exact hndl.1
          have hnd2 : nodupKeysList xs' = true := by
            simp [nodupKeysList, Bool.and_eq_true] at hndl
            exact hndl.2
          show canon x :: canonArr xs' = canon y :: canonArr ys'
          rw [ih x y hszx hx hnd1, ihx hxs' hszxs' hnd2]
    | obj hkvs hperm =>
      rename_i kvs l kvs'
      have hobj : sizeOf (J.obj kvs) = 1 + sizeOf kvs := by simp
      have hkvsz : sizeOf kvs < n := by omega
      have hndk : (kvs.map Prod.fst).Nodup ∧ nodupKeysKVs kvs = true := by
        have := hnd
        simp [nodupKeys, Bool.and_eq_true] at this
        exact this
      -- pointwise: canonKVs kvs = canonKVs l
      have h1 : canonKVs kvs = canonKVs l := by
        clear hsz hnd hperm hobj
        have hndkvs := hndk.2
        clear hndk
        induction kvs generalizing l with
        | nil => cases hkvs; rfl
        | cons p rest ihp =>
          cases hkvs with
          | cons k hv hrest =>
            rename_i v w rest'
            have hszv : sizeOf v < n := by
              have e1 : sizeOf ((k, v) :: rest) = 1 + sizeOf (k, v) + sizeOf rest := by simp
              have e2 : sizeOf (k, v) = 1 + sizeOf k + sizeOf v := by simp
              omega
            have hszr : sizeOf rest < n := by
              have e1 : sizeOf ((k, v) :: rest) = 1 + sizeOf (k, v) + sizeOf rest := by simp
              omega
            have hnd1 : nodupKeys v = true := by
              simp [nodupKeysKVs, Bool.and_eq_true] at hndkvs
              exact hndkvs.1
            have hnd2 : nodupKeysKVs rest = true := by
              simp [nodupKeysKVs, Bool.and_eq_true] at hndkvs
              exact hndkvs.2
            show (k, canon v) :: canonKVs rest = (k, canon w) :: canonKVs rest'
            rw [ih v w hszv hv hnd1, ihp hrest hszr hnd2]
      show J.obj ((canonKVs kvs).mergeSort keyLe) = J.obj ((canonKVs kvs').mergeSort keyLe)
      congr 1
      rw [h1]
      apply mergeSort_eq_of_perm_nodupKeys
      · rw [canonKVs_eq_map, canonKVs_eq_map]
        exact hperm.map _
      · rw [canonKVs_eq_map]
        have hkeys : (l.map (fun p => (p.1, canon p.2))).map Prod.fst = l.map Prod.fst := by
          simp
        rw [hkeys, ← keys_of_JEquivKVs hkvs]
        exact hndk.1

/-- C4: two requests whose fingerprinted fields {model id, message list,
system prompt, tool definitions, tool-choice policy} have identical values,
independent of the ordering of keys inside any map, receive the same request
fingerprint, because canonicalization sorts map keys before hashing. -/
theorem fingerprint_key_order_independence (r₁ r₂ : CacheReq)
    (heq : ReqEquiv r₁ r₂) (hnd : nodupKeys (payloadJ r₁) = true) :
    generate_cache_key r₁ = generate_cache_key r₂ := by
  have hc : canon (payloadJ r₁) = canon (payloadJ r₂) := by
    apply canon_eq_aux (sizeOf (payloadJ r₁) + 1) _ _ (by omega) _ hnd
    obtain ⟨h1, h2, h3, h4, h5⟩ := heq
    refine JEquiv.obj ?_ (List.Perm.refl _)
    refine JEquivKVs.cons "model" ?_
      (JEquivKVs.cons "messages" (JEquiv.arr h2)
        (JEquivKVs.cons "system" ?_
          (JEquivKVs.cons "tools" ?_
            (JEquivKVs.cons "tool_choice" h5 JEquivKVs.nil))))
    · rw [h1]
      exact JEquiv.str _
    · rw [h3]
      cases r₂.system_prompt
      · exact JEquiv.null
      · exact JEquiv.str _
    · rcases hr1 : r₁.tools with _ | t₁ <;> rcases hr2 : r₂.tools with _ | t₂ <;>
        rw [hr1, hr2] at h4 <;> simp at h4 ⊢
      · exact JEquiv.null
      · exact JEquiv.arr h4
  unfold generate_cache_key
  rw [hc]



theorem reqA_equiv_reqB : ReqEquiv reqA reqB :=
  ⟨rfl,
   JEquivList.cons
     (JEquiv.obj
       (JEquivKVs.cons "role" (JEquiv.str "user")
         (JEquivKVs.cons "content" (JEquiv.str "hi") JEquivKVs.nil))
       (List.Perm.swap ("content", J.str "hi") ("role", J.str "user") []))
     JEquivList.nil,
   rfl, trivial, JEquiv.str "auto"⟩

theorem fingerprint_key_order_independence_witness :
    (ReqEquiv reqA reqB ∧ nodupKeys (payloadJ reqA) = true) ∧
    generate_cache_key reqA = generate_cache_key reqB :=
  ⟨⟨reqA_equiv_reqB, by decide⟩,
   fingerprint_key_order_independence reqA reqB reqA_equiv_reqB (by decide)⟩

theorem truthyO_some_iff (s : String) : truthyO (some s) = true ↔ s ≠ "" := by
  simp only [truthyO, Bool.not_eq_true']
  rw [Bool.eq_false_iff]
  exact not_congr (String.isEmpty_iff s)

theorem stepFrag_inert (s : Asm) (f : Frag) (h : inertFrag f = true) : stepFrag s f = s := by
  simp only [inertFrag, Bool.and_eq_true, Bool.not_eq_true', beq_iff_eq] at h
  obtain ⟨hn, ha⟩ := h
  cases hf : f.args with
  | none => simp [stepFrag, hn, hf]
  | some a =>
    have haa : a = "" := by simpa [hf] using ha
    subst haa
    simp [stepFrag, hn, hf]

theorem appendArgs_last (s : Asm) (pre : List Buf) (b : Buf) (a : String)
    (hb : s.bufs = pre ++ [b]) (hfresh : ∀ x ∈ pre, x.iid ≠ b.iid) :
    appendArgs s b.iid a = { s with bufs := pre ++ [{ b with argsBuf := b.argsBuf ++ a }] } := by
  unfold appendArgs
  rw [hb]
  have hany : ((pre ++ [b]).any (fun x => x.iid = b.iid)) = true := by
    simp
  rw [if_pos hany, List.map_append]
  have hpre : pre.map (fun x => if x.iid = b.iid then ({ x with argsBuf := x.argsBuf ++ a } : Buf) else x) = pre := by
    conv_rhs => rw [← List.map_id pre]
    apply List.map_congr_left
    intro x hx
    simp [hfresh x hx]
  rw [hpre]
  simp

theorem stepFrag_name_pid (s : Asm) (f : Frag) (name pid : String)
    (hn : f.name = some name) (hne : name ≠ "") (hid : f.id = some pid) (hpid : pid ≠ "")
    (hfresh : ∀ x ∈ s.bufs, x.iid ≠ pid) :
    stepFrag s f = ⟨s.bufs ++ [⟨pid, name, fragArgsStr f, f.id⟩], some pid, s.counter⟩ := by
  have htn : truthyO f.name = true := by rw [hn, truthyO_some_iff]; exact hne
  have hti : truthyO (some pid) = true := (truthyO_some_iff pid).2 hpid
  have hany : (s.bufs.any (fun b => b.iid = pid)) = false := by
    rw [List.any_eq_false]
    intro x hx
    simp [hfresh x hx]
  unfold stepFrag
  simp only [htn, eq_self_iff_true, if_true, ite_true]
  simp only [hid, hti, hn, Option.getD_some, hany, Bool.false_eq_true, if_false, if_true,
    ite_true, ite_false, eq_self_iff_true]
  cases hf : f.args with
  | none => simp [fragArgsStr, hf]
  | some a =>
    by_cases ha : a = ""
    · subst ha
      simp [fragArgsStr, hf]
    · dsimp only
      rw [if_pos ha]
      have hstep := appendArgs_last ⟨s.bufs ++ [⟨pid, name, "", some pid⟩], some pid, s.counter⟩
        s.bufs ⟨pid, name, "", some pid⟩ a rfl hfresh
      simp only [hstep]
      simp [fragArgsStr, hf]

theorem stepFrag_name_gen (s : Asm) (f : Frag) (name : String)
    (hn : f.name = some name) (hne : name ≠ "") (hid : truthyO f.id = false)
    (hfresh : ∀ x ∈ s.bufs, x.iid ≠ genId s.counter) :
    stepFrag s f = ⟨s.bufs ++ [⟨genId s.counter, name, fragArgsStr f, f.id⟩],
      some (genId s.counter), s.counter + 1⟩ := by
  have htn : truthyO f.name = true := by rw [hn, truthyO_some_iff]; exact hne
  have hany : (s.bufs.any (fun b => b.iid = genId s.counter)) = false := by
    rw [List.any_eq_false]
    intro x hx
    simp [hfresh x hx]
  unfold stepFrag
  simp only [htn, eq_self_iff_true, if_true, ite_true]
  simp only [hid, hn, Option.getD_some, hany, Bool.false_eq_true, if_false, if_true,
    ite_true, ite_false, eq_self_iff_true]
  cases hf : f.args with
  | none => simp [fragArgsStr, hf]
  | some a =>
    by_cases ha : a = ""
    · subst ha
      simp [fragArgsStr, hf]
    · dsimp only
      rw [if_pos ha]
      have hstep := appendArgs_last ⟨s.bufs ++ [⟨genId s.counter, name, "", f.id⟩],
          some (genId s.counter), s.counter + 1⟩
        s.bufs ⟨genId s.counter, name, "", f.id⟩ a rfl hfresh
      simp only [hstep]
      simp [fragArgsStr, hf]

theorem stepFrag_argPiece_step (s : Asm) (g : Frag) (a : String)
    (hn : truthyO g.name = false) (hi : truthyO g.id = false) (ha : g.args = some a)
    (hane : a ≠ "") (cid : String) (hc : s.current = some cid) :
    stepFrag s g = appendArgs s cid a := by
  unfold stepFrag
  simp only [hn, Bool.false_eq_true, if_false, ha, hi, not_false_iff, and_true, hc,
    ite_true, ite_false, eq_self_iff_true]
  rw [if_pos]
  exact hane

theorem foldl_rest (rest : List Frag) : ∀ (s : Asm) (pre : List Buf) (b : Buf),
    (∀ g ∈ rest, inertFrag g = true ∨ argPieceFrag g = true) →
    s.bufs = pre ++ [b] → s.current = some b.iid → (∀ x ∈ pre, x.iid ≠ b.iid) →
    processFrags rest s =
      { s with bufs := pre ++ [{ b with argsBuf := b.argsBuf ++ piecesConcat rest }] } := by
  induction rest with
  | nil =>
    intro s pre b _ hb _ _
    show s = _
    rw [piecesConcat, List.foldr_nil, String.append_empty]
    rw [← hb]
  | cons g rest' ih =>
    intro s pre b hall hb hc hf
    have hstep : processFrags (g :: rest') s = processFrags rest' (stepFrag s g) := rfl
    have hpc : piecesConcat (g :: rest') = fragArgsStr g ++ piecesConcat rest' := rfl
    rcases hall g (by simp) with hg | hg
    · have hga : fragArgsStr g = "" := by
        simp only [inertFrag, Bool.and_eq_true, beq_iff_eq] at hg
        simpa [fragArgsStr] using hg.2
      rw [hstep, stepFrag_inert s g hg, ih s pre b (fun x hx => hall x (by simp [hx])) hb hc hf,
        hpc, hga]
      rfl
    · simp only [argPieceFrag, Bool.and_eq_true, Bool.not_eq_true', Option.isSome_iff_exists]
        at hg
      obtain ⟨⟨hgn, hgi⟩, a, ha⟩ := hg
      have hga : fragArgsStr g = a := by simp [fragArgsStr, ha]
      by_cases hae : a = ""
      · have hinert : inertFrag g = true := by
          simp [inertFrag, hgn, ha, hae]
        rw [hstep, stepFrag_inert s g hinert,
          ih s pre b (fun x hx => hall x (by simp [hx])) hb hc hf, hpc, hga, hae]
        rfl
      · rw [hstep, stepFrag_argPiece_step s g a (by simp [hgn]) (by simp [hgi]) ha hae b.iid hc,
          appendArgs_last s pre b a hb hf]
        rw [ih _ pre { b with argsBuf := b.argsBuf ++ a }
          (fun x hx => hall x (by simp [hx])) rfl (by simpa using hc) (by simpa using hf)]
        rw [hpc, hga]
        simp [String.append_assoc]

theorem processFrags_validSplit (c : TCall) (hname : c.name ≠ "") :
    ∀ (frags : List Frag) (s : Asm), isValidSplit c frags = true →
    (∀ pid, c.id = some pid → pid ≠ "" → ∀ x ∈ s.bufs, x.iid ≠ pid) →
    (∀ x ∈ s.bufs, x.iid ≠ genId s.counter) →
    ∃ (iid : String) (oid : Option String) (d : Nat),
      processFrags frags s = ⟨s.bufs ++ [⟨iid, c.name, c.args, oid⟩], some iid, s.counter + d⟩ ∧
      ((∃ pid, c.id = some pid ∧ pid ≠ "" ∧ iid = pid ∧ d = 0) ∨
       (iid = genId s.counter ∧ d = 1)) := by
  intro frags
  induction frags with
  | nil => intro s hv; simp [isValidSplit] at hv
  | cons f fs ih =>
    intro s hv hfresh_pid hfresh_gen
    by_cases hif : inertFrag f = true
    · have hv' : isValidSplit c fs = true := by
        rw [isValidSplit, if_pos hif] at hv
        exact hv
      have : processFrags (f :: fs) s = processFrags fs (stepFrag s f) := rfl
      rw [this, stepFrag_inert s f hif]
      exact ih s hv' hfresh_pid hfresh_gen
    · rw [isValidSplit, if_neg hif] at hv
      simp only [Bool.and_eq_true, Bool.or_eq_true, Bool.not_eq_true', beq_iff_eq] at hv
      obtain ⟨⟨⟨⟨htn, hfn⟩, hfid⟩, hall⟩, hcat⟩ := hv
      have hstep : processFrags (f :: fs) s = processFrags fs (stepFrag s f) := rfl
      have hallp : ∀ g ∈ fs, inertFrag g = true ∨ argPieceFrag g = true := by
        intro g hg
        have := List.all_eq_true.1 hall g hg
        simpa [Bool.or_eq_true] using this
      by_cases hti : truthyO f.id = true
      · rcases hfid with hfid | hfid
        · rw [hfid] at hti
          exact absurd hti (by simp)
        · -- f.id = c.id, truthy
          obtain ⟨pid, hpid⟩ : ∃ pid, f.id = some pid := by
            cases hfi : f.id with
            | none => rw [hfi] at hti; exact absurd hti (by simp [truthyO])
            | some p => exact ⟨p, rfl⟩
          have hpidne : pid ≠ "" := by
            rw [hpid] at hti
            exact (truthyO_some_iff pid).1 hti
          have hcid : c.id = some pid := by rw [← hfid, hpid]
          have hfr : ∀ x ∈ s.bufs, x.iid ≠ pid := hfresh_pid pid hcid hpidne
          rw [hstep, stepFrag_name_pid s f c.name pid hfn hname hpid hpidne hfr]
          rw [foldl_rest fs _ s.bufs ⟨pid, c.name, fragArgsStr f, f.id⟩ hallp rfl rfl hfr]
          refine ⟨pid, f.id, 0, ?_, Or.inl ⟨pid, hcid, hpidne, rfl, rfl⟩⟩
          simp [hcat]
      · have hti' : truthyO f.id = false := by simpa using hti
        rw [hstep, stepFrag_name_gen s f c.name hfn hname hti' hfresh_gen]
        rw [foldl_rest fs _ s.bufs ⟨genId s.counter, c.name, fragArgsStr f, f.id⟩ hallp rfl rfl
          hfresh_gen]
        refine ⟨genId s.counter, f.id, 1, ?_, Or.inr ⟨rfl, rfl⟩⟩
        simp [hcat]

theorem stepFrag_combined (c : TCall) (s : Asm) (hname : c.name ≠ "")
    (hfresh_pid : ∀ pid, c.id = some pid → pid ≠ "" → ∀ x ∈ s.bufs, x.iid ≠ pid)
    (hfresh_gen : ∀ x ∈ s.bufs, x.iid ≠ genId s.counter) :
    ∃ (iid : String) (d : Nat),
      stepFrag s (combinedFrag c) = ⟨s.bufs ++ [⟨iid, c.name, c.args, c.id⟩], some iid, s.counter + d⟩ ∧
      ((∃ pid, c.id = some pid ∧ pid ≠ "" ∧ iid = pid ∧ d = 0) ∨
       (iid = genId s.counter ∧ d = 1)) := by
  by_cases hti : truthyO c.id = true
  · obtain ⟨pid, hpid⟩ : ∃ pid, c.id = some pid := by
      cases hfi : c.id with
      | none => rw [hfi] at hti; exact absurd hti (by simp [truthyO])
      | some p => exact ⟨p, rfl⟩
    have hpidne : pid ≠ "" := by
      rw [hpid] at hti
      exact (truthyO_some_iff pid).1 hti
    have hfr : ∀ x ∈ s.bufs, x.iid ≠ pid := hfresh_pid pid hpid hpidne
    refine ⟨pid, 0, ?_, Or.inl ⟨pid, hpid, hpidne, rfl, rfl⟩⟩
    have := stepFrag_name_pid s (combinedFrag c) c.name pid rfl hname
      (by simp [combinedFrag, hpid]) hpidne hfr
    rw [this]
    simp [fragArgsStr, combinedFrag, hpid]
  · have hti' : truthyO c.id = false := by simpa using hti
    refine ⟨genId s.counter, 1, ?_, Or.inr ⟨rfl, rfl⟩⟩
    have := stepFrag_name_gen s (combinedFrag c) c.name rfl hname
      (by simpa [combinedFrag] using hti') hfresh_gen
    rw [this]
    simp [fragArgsStr, combinedFrag]

theorem truthyIds_head_cons (c : TCall) (todo : List TCall) (pid : String)
    (hc : c.id = some pid) (hpid : pid ≠ "") :
    truthyIds (c :: todo) = pid :: truthyIds todo := by
  have ht : truthyO (some pid) = true := (truthyO_some_iff pid).2 hpid
  simp [truthyIds, List.filterMap_cons, hc, ht]

theorem mem_truthyIds (todo : List TCall) (c : TCall) (pid : String)
    (hmem : c ∈ todo) (hc : c.id = some pid) (hpid : pid ≠ "") :
    pid ∈ truthyIds todo := by
  have ht : truthyO (some pid) = true := (truthyO_some_iff pid).2 hpid
  exact List.mem_filterMap.2 ⟨c, hmem, by rw [hc]; simp [ht]⟩

theorem mainAux : ∀ (todo : List TCall) (splits : List (List Frag)) (s t : Asm) (N : Nat),
    List.Forall₂ (fun c fr => isValidSplit c fr = true) todo splits →
    (∀ c ∈ todo, c.name ≠ "") →
    (truthyIds todo).Nodup →
    (∀ c ∈ todo, ∀ j, j < N → c.id ≠ some (genId j)) →
    (∀ j, j < N → ∀ k, k < N → j ≠ k → genId j ≠ genId k) →
    s.counter + todo.length ≤ N →
    t.counter + todo.length ≤ N →
    (∀ x ∈ s.bufs, ∀ j, s.counter ≤ j → j < N → x.iid ≠ genId j) →
    (∀ x ∈ t.bufs, ∀ j, t.counter ≤ j → j < N → x.iid ≠ genId j) →
    (∀ x ∈ s.bufs, ∀ c ∈ todo, ∀ pid, c.id = some pid → pid ≠ "" → x.iid ≠ pid) →
    (∀ x ∈ t.bufs, ∀ c ∈ todo, ∀ pid, c.id = some pid → pid ≠ "" → x.iid ≠ pid) →
    extractCalls s = extractCalls t →
    extractCalls (processFrags splits.flatten s) = extractCalls (processFrags (todo.map combinedFrag) t) := by
  intro todo
  induction todo with
  | nil =>
    intro splits s t N hf₂ _ _ _ _ _ _ _ _ _ _ hrel
    cases hf₂
    simpa [processFrags] using hrel
  | cons c todo' ih =>
    intro splits s t N hf₂ hnames hnodup hgen hinj hcs hct hgs hgt hps hpt hrel
    cases hf₂ with
    | cons hv hf₂' =>
      rename_i fr splits'
      have hname : c.name ≠ "" := hnames c (by simp)
      have hNpos : s.counter < N := by simp at hcs; omega
      have hNpos' : t.counter < N := by simp at hct; omega
      -- process the split of c on the s-side
      obtain ⟨iidS, oidS, dS, hS, hcaseS⟩ := processFrags_validSplit c hname fr s hv
        (fun pid hc hpid x hx => hps x hx c (by simp) pid hc hpid)
        (fun x hx => hgs x hx s.counter le_rfl hNpos)
      -- process the combined fragment of c on the t-side
      obtain ⟨iidT, dT, hT, hcaseT⟩ := stepFrag_combined c t hname
        (fun pid hc hpid x hx => hpt x hx c (by simp) pid hc hpid)
        (fun x hx => hgt x hx t.counter le_rfl hNpos')
      have hjoin : processFrags ((fr :: splits').flatten) s =
          processFrags splits'.flatten (processFrags fr s) := by
        simp [processFrags, List.flatten, List.foldl_append]
      have hmapc : processFrags ((c :: todo').map combinedFrag) t =
          processFrags (todo'.map combinedFrag) (stepFrag t (combinedFrag c)) := rfl
      rw [hjoin, hmapc, hS, hT]
      have hdS : dS ≤ 1 := by rcases hcaseS with ⟨_, _, _, _, h⟩ | ⟨_, h⟩ <;> omega
      have hdT : dT ≤ 1 := by rcases hcaseT with ⟨_, _, _, _, h⟩ | ⟨_, h⟩ <;> omega
      apply ih splits' _ _ N hf₂' (fun c' hc' => hnames c' (by simp [hc']))
        (by
          rcases hid : c.id with _ | pid
          · -- c has no provider id: truthyIds (c :: todo') = truthyIds todo'
            have : truthyO c.id = false := by simp [hid, truthyO]
            simpa [truthyIds, List.filterMap_cons, this] using hnodup
          · by_cases hpid : pid = ""
            · have : truthyO c.id = false := by rw [hid, hpid]; rfl
              simpa [truthyIds, List.filterMap_cons, this] using hnodup
            · rw [truthyIds_head_cons c todo' pid hid hpid] at hnodup
              exact hnodup.of_cons)
        (fun c' hc' => hgen c' (by simp [hc']))
        hinj
        (by dsimp only; simp only [List.length_cons] at hcs; omega)
        (by dsimp only; simp only [List.length_cons] at hct; omega)
        ?_ ?_ ?_ ?_ ?_
      · -- generated-id invariant for the new s-state
        intro x hx j hj hjN
        dsimp only at hj
        simp only [List.mem_append, List.mem_singleton] at hx
        rcases hx with hx | rfl
        · exact hgs x hx j (by omega) hjN
        · rcases hcaseS with ⟨pid, hcid, hpid, hiid, hd⟩ | ⟨hiid, hd⟩
          · subst hiid
            intro hcon
            dsimp only at hcon
            exact hgen c (by simp) j hjN (by rw [hcid, hcon])
          · subst hiid hd
            exact hinj s.counter hNpos j hjN (by omega)
      · intro x hx j hj hjN
        dsimp only at hj
        simp only [List.mem_append, List.mem_singleton] at hx
        rcases hx with hx | rfl
        · exact hgt x hx j (by omega) hjN
        · rcases hcaseT with ⟨pid, hcid, hpid, hiid, hd⟩ | ⟨hiid, hd⟩
          · subst hiid
            intro hcon
            dsimp only at hcon
            exact hgen c (by simp) j hjN (by rw [hcid, hcon])
          · subst hiid hd
            exact hinj t.counter hNpos' j hjN (by omega)
      · -- provider-id invariant for the new s-state
        intro x hx c' hc' pid' hcid' hpid'
        simp only [List.mem_append, List.mem_singleton] at hx
        rcases hx with hx | rfl
        · exact hps x hx c' (by simp [hc']) pid' hcid' hpid'
        · rcases hcaseS with ⟨pid, hcid, hpid, hiid, hd⟩ | ⟨hiid, hd⟩
          · rw [truthyIds_head_cons c todo' pid hcid hpid] at hnodup
            intro hcon
            dsimp only at hcon
            rw [hiid] at hcon
            subst hcon
            exact (List.nodup_cons.1 hnodup).1 (mem_truthyIds todo' c' pid hc' hcid' hpid')
          · subst hiid
            intro hcon
            dsimp only at hcon
            exact hgen c' (by simp [hc']) s.counter hNpos (by rw [hcid', hcon])
      · intro x hx c' hc' pid' hcid' hpid'
        simp only [List.mem_append, List.mem_singleton] at hx
        rcases hx with hx | rfl
        · exact hpt x hx c' (by simp [hc']) pid' hcid' hpid'
        · rcases hcaseT with ⟨pid, hcid, hpid, hiid, hd⟩ | ⟨hiid, hd⟩
          · rw [truthyIds_head_cons c todo' pid hcid hpid] at hnodup
            intro hcon
            dsimp only at hcon
            rw [hiid] at hcon
            subst hcon
            exact (List.nodup_cons.1 hnodup).1 (mem_truthyIds todo' c' pid hc' hcid' hpid')
          · subst hiid
            intro hcon
            dsimp only at hcon
            exact hgen c' (by simp [hc']) t.counter hNpos' (by rw [hcid', hcon])
      · -- the (name, args) extraction stays pointwise equal
        simp [extractCalls] at hrel ⊢
        exact hrel



/-- C1: for any finite sequence of tool-call fragments obtained by splitting
each call arbitrarily across chunk boundaries (the id may arrive separately
from the name, argument fragments may arrive one character at a time), the
assembler reconstructs, for every call, exactly the same
`(name, arguments_json)` record as when each call arrives in one fragment,
provided the arrival order of a call's fragments is preserved.  Side
conditions: names are truthy, truthy provider ids are pairwise distinct and
no provider id collides with a synthetic `generated_i` id. -/
theorem assembler_fragmentation_invariance (calls : List TCall) (splits : List (List Frag))
    (hsplit : List.Forall₂ (fun c fr => isValidSplit c fr = true) calls splits)
    (hnames : ∀ c ∈ calls, c.name ≠ "")
    (hnodup : (truthyIds calls).Nodup)
    (hgen : ∀ c ∈ calls, ∀ j, j < calls.length → c.id ≠ some (genId j))
    (hinj : ∀ j, j < calls.length → ∀ k, k < calls.length → j ≠ k → genId j ≠ genId k) :
    extractCalls (processFrags splits.flatten Asm.init) =
      extractCalls (processFrags (calls.map combinedFrag) Asm.init) :=
  mainAux calls splits Asm.init Asm.init calls.length hsplit hnames hnodup hgen hinj
    (by simp [Asm.init]) (by simp [Asm.init])
    (by simp [Asm.init]) (by simp [Asm.init])
    (by simp [Asm.init]) (by simp [Asm.init]) rfl

theorem assembler_fragmentation_invariance_witness :
    (List.Forall₂ (fun c fr => isValidSplit c fr = true) wCalls wSplits ∧
     (∀ c ∈ wCalls, c.name ≠ "") ∧ (truthyIds wCalls).Nodup ∧
     (∀ c ∈ wCalls, ∀ j, j < wCalls.length → c.id ≠ some (genId j)) ∧
     (∀ j, j < wCalls.length → ∀ k, k < wCalls.length → j ≠ k → genId j ≠ genId k)) ∧
    extractCalls (processFrags wSplits.flatten Asm.init) =
      extractCalls (processFrags (wCalls.map combinedFrag) Asm.init) :=
  ⟨⟨List.Forall₂.cons (by decide) (List.Forall₂.cons (by decide) List.Forall₂.nil),
    by decide, by decide, by decide, by decide⟩,
   assembler_fragmentation_invariance wCalls wSplits
     (List.Forall₂.cons (by decide) (List.Forall₂.cons (by decide) List.Forall₂.nil))
     (by decide) (by decide) (by decide) (by decide)⟩


theorem cache_hit_replay_byte_identical_witness :
    (Cache.find [] (generate_cache_key sampleReq) = none ∧
     streamMissFrames sampleReq.base_model_id "base_url" helloChunks none ≠ []) ∧
    ∀ (chunks' : List Chunk) (fault' : Option Fault),
      runRelay ((runRelay [] sampleReq helloChunks none).2.1) sampleReq chunks' fault' =
        ((runRelay [] sampleReq helloChunks none).1,
         (runRelay [] sampleReq helloChunks none).2.1, false) :=
  ⟨⟨rfl, by decide⟩,
   cache_hit_replay_byte_identical [] sampleReq helloChunks none rfl (by decide)⟩
